import Mathlib

/-!
Verification of `repair_json_text.py`: a mojibake-repair script consisting of
a byte-order-mark-sniffing decoder (`read_text`), an ordered list of
regular-expression replacements (`REPLACEMENTS`, all of whose patterns are
alternations of literal strings), and a `main` that reads a file, applies the
replacements in order, and writes the result as UTF-8.

The embedding models bytes as `Nat` (values < 256 in practice), Python `str`
values as `List Char` (Unicode scalar values; the script never produces
surrogates), and a decode failure (an uncaught `UnicodeDecodeError`) as
`Option.none`.
-/

namespace Repair

/-! ## The Repairer: literal-alternation substitution (`re.sub`)

Each pattern in `REPLACEMENTS` is an alternation of literal strings
(the only regex metacharacters used are `|` and an escaped quote), so
`re.sub` semantics specialize to: scan left to right; at each position try
the alternatives in order; on a match, emit the replacement and resume after
the matched text; otherwise emit the character and move on. -/

/-- First alternative (in pattern order) that literally matches at the head of
`s`; returns the length of the matched alternative.  This is Python regex
alternation semantics for literal branches: leftmost position, first listed
alternative wins.  (No pattern in this program has an empty alternative; the
nonemptiness test makes the match length positive by construction.) -/
def matchAlt : List (List Char) → List Char → Option Nat
  | [], _ => none
  | a :: rest, s =>
    if a ≠ [] ∧ List.isPrefixOf a s = true then some a.length else matchAlt rest s

/-- Fuel-indexed left-to-right replacement of every non-overlapping match of
one alternation pattern by a literal replacement (`re.sub` for one rule).
One unit of fuel is spent per emitted-or-replaced step, and every step
consumes at least one input character, so fuel `s.length` is always enough. -/
def replaceAltsF (alts : List (List Char)) (r : List Char) : Nat → List Char → List Char
  | 0, s => s
  | _ + 1, [] => []
  | f + 1, c :: rest =>
    match matchAlt alts (c :: rest) with
    | some n => r ++ replaceAltsF alts r f ((c :: rest).drop n)
    | none => c :: replaceAltsF alts r f rest

/-- Semantics of `re.sub(pattern, r, s)` for a literal-alternation `pattern`. -/
def replaceAlts (alts : List (List Char)) (r : List Char) (s : List Char) : List Char :=
  replaceAltsF alts r s.length s

/-- Alternatives of the first rule: the four dash mojibake forms
`ÔÇô`, `ÔÇö`, `â€“`, `â€”` (code points as decoded from the script source). -/
def alts1 : List (List Char) :=
  [[Char.ofNat 0xD4, Char.ofNat 0xC7, Char.ofNat 0xF4],
   [Char.ofNat 0xD4, Char.ofNat 0xC7, Char.ofNat 0xF6],
   [Char.ofNat 0xE2, Char.ofNat 0x20AC, Char.ofNat 0x201C],
   [Char.ofNat 0xE2, Char.ofNat 0x20AC, Char.ofNat 0x201D]]

/-- Alternatives of the second rule: the ellipsis mojibake forms `ÔÇª`, `â€¦`. -/
def alts2 : List (List Char) :=
  [[Char.ofNat 0xD4, Char.ofNat 0xC7, Char.ofNat 0xAA],
   [Char.ofNat 0xE2, Char.ofNat 0x20AC, Char.ofNat 0xA6]]

/-- Third rule's single literal pattern (the longest quote-adjacent artifact,
6 characters: U+0627, quote, U+0627, U+062E, `a`, U+064F). -/
def pat3 : List Char :=
  [Char.ofNat 0x627, Char.ofNat 0x22, Char.ofNat 0x627, Char.ofNat 0x62E,
   Char.ofNat 0x61, Char.ofNat 0x64F]

/-- Fourth rule's single literal pattern (5 characters). -/
def pat4 : List Char :=
  [Char.ofNat 0x627, Char.ofNat 0x22, Char.ofNat 0x627, Char.ofNat 0x62E,
   Char.ofNat 0x61]

/-- Fifth rule's single literal pattern (4 characters). -/
def pat5 : List Char :=
  [Char.ofNat 0x627, Char.ofNat 0x22, Char.ofNat 0x627, Char.ofNat 0x62E]

/-- Replacement text `-`. -/
def dashRepl : List Char := [Char.ofNat 0x2D]

/-- Replacement text `...`. -/
def dotsRepl : List Char := [Char.ofNat 0x2E, Char.ofNat 0x2E, Char.ofNat 0x2E]

/-- The ordered replacement list of the script (pattern alternatives paired
with their literal replacement), in source order. -/
def REPLACEMENTS : List (List (List Char) × List Char) :=
  [(alts1, dashRepl), (alts2, dotsRepl),
   ([pat3], dashRepl), ([pat4], dashRepl), ([pat5], dashRepl)]

/-- The Repairer: the `for pattern, repl in REPLACEMENTS: text = re.sub ...`
loop of `main`, applying the rules in order, each over the whole current
string. -/
def repair (s : List Char) : List Char :=
  REPLACEMENTS.foldl (fun t pr => replaceAlts pr.1 pr.2 t) s

/-- Predicate `hasOcc alts s`: some suffix of `s` starts with a match of `alts`,
i.e. the pattern occurs somewhere in `s`. -/
def hasOcc (alts : List (List Char)) : List Char → Bool
  | [] => (matchAlt alts []).isSome
  | c :: rest => (matchAlt alts (c :: rest)).isSome || hasOcc alts rest

/-! ## The Decoder: `read_text`

Python's `bytes.decode("utf-8", errors="replace")` follows the Unicode
"maximal subpart" practice: at each position the longest prefix of a valid
UTF-8 sequence is consumed; if it is a complete sequence it yields its scalar
value, otherwise the consumed bytes (at least one) yield one U+FFFD.
`bytes.decode("utf-16")` (strict) raises on truncated data or invalid
surrogate pairs, modelled as `none`. -/

/-- The Unicode replacement character U+FFFD. -/
def uRepl : Char := Char.ofNat 0xFFFD

/-- Lower bound for the second byte of a multibyte UTF-8 sequence headed by
`b` (Unicode Table 3-7: `E0` requires `A0..`, `F0` requires `90..`). -/
def lo2 (b : Nat) : Nat :=
  if b = 0xE0 then 0xA0 else if b = 0xF0 then 0x90 else 0x80

/-- Upper bound for the second byte of a multibyte UTF-8 sequence headed by
`b` (`ED` allows `..9F`, excluding surrogates; `F4` allows `..8F`, capping at
U+10FFFF). -/
def hi2 (b : Nat) : Nat :=
  if b = 0xED then 0x9F else if b = 0xF4 then 0x8F else 0xBF

/-- Decode one UTF-8 sequence headed by byte `b` with following bytes `rest`:
returns the resulting character (the decoded scalar, or U+FFFD for a maximal
subpart of an ill-formed sequence) and how many bytes of `rest` were consumed
in addition to `b`. -/
def utf8Step (b : Nat) (rest : List Nat) : Char × Nat :=
  if b < 0x80 then (Char.ofNat b, 0)
  else if 0xC2 ≤ b ∧ b ≤ 0xF4 then
    match rest with
    | [] => (uRepl, 0)
    | b1 :: rest1 =>
      if lo2 b ≤ b1 ∧ b1 ≤ hi2 b then
        if b ≤ 0xDF then (Char.ofNat ((b - 0xC0) * 0x40 + (b1 - 0x80)), 1)
        else
          match rest1 with
          | [] => (uRepl, 1)
          | b2 :: rest2 =>
            if 0x80 ≤ b2 ∧ b2 ≤ 0xBF then
              if b ≤ 0xEF then
                (Char.ofNat ((b - 0xE0) * 0x1000 + (b1 - 0x80) * 0x40 + (b2 - 0x80)), 2)
              else
                match rest2 with
                | [] => (uRepl, 2)
                | b3 :: _ =>
                  if 0x80 ≤ b3 ∧ b3 ≤ 0xBF then
                    (Char.ofNat ((b - 0xF0) * 0x40000 + (b1 - 0x80) * 0x1000 +
                      (b2 - 0x80) * 0x40 + (b3 - 0x80)), 3)
                  else (uRepl, 2)
            else (uRepl, 1)
      else (uRepl, 0)
  else (uRepl, 0)

/-- Fuel-indexed UTF-8 decoding with `errors="replace"`.  Each step consumes
at least one byte, so fuel `l.length` always suffices. -/
def decodeUtf8F : Nat → List Nat → List Char
  | 0, _ => []
  | _ + 1, [] => []
  | f + 1, b :: rest =>
    (utf8Step b rest).1 :: decodeUtf8F f (rest.drop (utf8Step b rest).2)

/-- Model of `bytes.decode("utf-8", errors="replace")`: total UTF-8 decoding,
substituting U+FFFD for each maximal subpart of an ill-formed sequence. -/
def decodeUtf8Replace (l : List Nat) : List Char :=
  decodeUtf8F l.length l

/-- UTF-8 encoding of one scalar value (as used by
`Path.write_text(text, encoding="utf-8")`). -/
def utf8EncodeChar (c : Char) : List Nat :=
  if c.toNat < 0x80 then [c.toNat]
  else if c.toNat < 0x800 then [0xC0 + c.toNat / 0x40, 0x80 + c.toNat % 0x40]
  else if c.toNat < 0x10000 then
    [0xE0 + c.toNat / 0x1000, 0x80 + c.toNat / 0x40 % 0x40, 0x80 + c.toNat % 0x40]
  else
    [0xF0 + c.toNat / 0x40000, 0x80 + c.toNat / 0x1000 % 0x40,
     0x80 + c.toNat / 0x40 % 0x40, 0x80 + c.toNat % 0x40]

/-- UTF-8 encoding of a string (BOM-less, as `encoding="utf-8"` writes it). -/
def utf8Encode : List Char → List Nat
  | [] => []
  | c :: cs => utf8EncodeChar c ++ utf8Encode cs

/-- One UTF-16 code unit from two bytes in the given byte order
(`true` = big-endian). -/
def unit16 : Bool → Nat → Nat → Nat
  | true, b0, b1 => b0 * 256 + b1
  | false, b0, b1 => b1 * 256 + b0

/-- Strict UTF-16 decoding of a byte list (after BOM removal) with the given
byte order (`be = true` for big-endian).  `none` models the
`UnicodeDecodeError` Python raises on an odd number of bytes ("truncated
data"), a lone surrogate, or an unpaired high surrogate. -/
def decodeUtf16 (be : Bool) : List Nat → Option (List Char)
  | [] => some []
  | [_] => none
  | b0 :: b1 :: rest =>
    if unit16 be b0 b1 < 0xD800 ∨ 0xDFFF < unit16 be b0 b1 then
      (decodeUtf16 be rest).map fun cs => Char.ofNat (unit16 be b0 b1) :: cs
    else if unit16 be b0 b1 < 0xDC00 then
      match rest with
      | b2 :: b3 :: rest2 =>
        if 0xDC00 ≤ unit16 be b2 b3 ∧ unit16 be b2 b3 ≤ 0xDFFF then
          (decodeUtf16 be rest2).map fun cs =>
            Char.ofNat (0x10000 + (unit16 be b0 b1 - 0xD800) * 0x400 +
              (unit16 be b2 b3 - 0xDC00)) :: cs
        else none
      | _ => none
    else none

/-- One UTF-16 code unit as two bytes in the given byte order. -/
def utf16Unit : Bool → Nat → List Nat
  | true, u => [u / 256, u % 256]
  | false, u => [u % 256, u / 256]

/-- UTF-16 encoding of one scalar value (surrogate pair above U+FFFF). -/
def utf16EncodeChar (be : Bool) (c : Char) : List Nat :=
  if c.toNat < 0x10000 then utf16Unit be c.toNat
  else utf16Unit be (0xD800 + (c.toNat - 0x10000) / 0x400) ++
       utf16Unit be (0xDC00 + (c.toNat - 0x10000) % 0x400)

/-- UTF-16 encoding of a string (no BOM prepended). -/
def utf16Encode (be : Bool) : List Char → List Nat
  | [] => []
  | c :: cs => utf16EncodeChar be c ++ utf16Encode be cs

/-- The script's `read_text`, minus the file read: BOM sniffing and decoding.
`raw.decode("utf-16")` on input whose first two bytes are `FF FE` (`FE FF`)
consumes that BOM and decodes the remaining bytes as little-endian
(big-endian) UTF-16, strictly; the two UTF-8 branches use
`errors="replace"` (and `utf-8-sig` strips the three-byte BOM). -/
def read_text (raw : List Nat) : Option (List Char) :=
  if List.isPrefixOf [0xFF, 0xFE] raw = true ∨ List.isPrefixOf [0xFE, 0xFF] raw = true then
    if List.isPrefixOf [0xFF, 0xFE] raw = true then decodeUtf16 false (raw.drop 2)
    else decodeUtf16 true (raw.drop 2)
  else if List.isPrefixOf [0xEF, 0xBB, 0xBF] raw = true then
    some (decodeUtf8Replace (raw.drop 3))
  else
    some (decodeUtf8Replace raw)

/-- The data path of `main` from input file bytes to output file bytes:
decode (`read_text`), repair, and re-encode as UTF-8.  `none` models the
uncaught decode exception. -/
def pipeline (raw : List Nat) : Option (List Nat) :=
  (read_text raw).map fun t => utf8Encode (repair t)

/-! ## Command-line model of `main` -/

/-- The two flags of the command line, `none` when the flag is absent. -/
structure Args where
  in_path : Option String
  out_path : Option String

/-- A file-system side effect performed by `main`. -/
inductive FileOp where
  | readFile (path : String)
  | writeFile (path : String) (content : List Nat)
deriving DecidableEq

/-- Model of `argparse` with two `required=True` arguments: if either flag is missing
it prints a usage message and exits with status 2 (modelled as
`Except.error 2`) before anything else runs. -/
def parse_args (a : Args) : Except Nat (String × String) :=
  match a.in_path, a.out_path with
  | some i, some o => Except.ok (i, o)
  | _, _ => Except.error 2

/-- Model of `main`: parse arguments, then read, decode, repair, encode,
write.  Returns the exit status (`Except.error` for an abnormal exit: usage
error 2, or 1 for the uncaught `UnicodeDecodeError`) together with the trace
of file operations performed, in order.  `contents` are the bytes of the
input file. -/
def main_model (a : Args) (contents : List Nat) : Except Nat Nat × List FileOp :=
  match parse_args a with
  | Except.error c => (Except.error c, [])
  | Except.ok (i, o) =>
    match read_text contents with
    | none => (Except.error 1, [FileOp.readFile i])
    | some t =>
      (Except.ok 0, [FileOp.readFile i, FileOp.writeFile o (utf8Encode (repair t))])

/-- Every character appearing in any pattern alternative of any rule. -/
def patChars : List Char := (alts1 ++ alts2 ++ [pat3, pat4, pat5]).flatten


/-! ### Basic lemmas about `List.isPrefixOf` and `matchAlt` -/

theorem isPrefixOf_ex {α : Type} [BEq α] [LawfulBEq α] :
    ∀ {a s : List α}, List.isPrefixOf a s = true → ∃ t, a ++ t = s := by
  intro a
  induction a with
  | nil => intro s _; exact ⟨s, rfl⟩
  | cons x xs ih =>
    intro s h
    cases s with
    | nil => simp [List.isPrefixOf] at h
    | cons y ys =>
      simp only [List.isPrefixOf, Bool.and_eq_true, beq_iff_eq] at h
      obtain ⟨t, ht⟩ := ih h.2
      exact ⟨t, by rw [List.cons_append, ht, h.1]⟩

theorem isPrefixOf_append {α : Type} [BEq α] [LawfulBEq α] :
    ∀ (a t : List α), List.isPrefixOf a (a ++ t) = true := by
  intro a t
  induction a with
  | nil => simp [List.isPrefixOf]
  | cons x xs ih => simp [List.isPrefixOf, ih]

theorem matchAlt_eq_some {alts : List (List Char)} {s : List Char} {n : Nat}
    (h : matchAlt alts s = some n) :
    ∃ a, a ∈ alts ∧ a ≠ [] ∧ List.isPrefixOf a s = true ∧ n = a.length := by
  induction alts with
  | nil => exact absurd h (by rw [matchAlt]; exact Option.noConfusion)
  | cons a rest ih =>
    rw [matchAlt] at h
    by_cases hp : a ≠ [] ∧ List.isPrefixOf a s = true
    · refine ⟨a, List.mem_cons_self a rest, hp.1, hp.2, ?_⟩
      rw [if_pos hp] at h
      exact (Option.some.injEq _ _ ▸ h).symm
    · rw [if_neg hp] at h
      obtain ⟨a', ha', h1, h2, h3⟩ := ih h
      exact ⟨a', List.mem_cons_of_mem _ ha', h1, h2, h3⟩

theorem matchAlt_isSome_of {alts : List (List Char)} {a s : List Char}
    (ha : a ∈ alts) (hne : a ≠ []) (hp : List.isPrefixOf a s = true) :
    (matchAlt alts s).isSome = true := by
  induction alts with
  | nil => simp at ha
  | cons b rest ih =>
    rw [matchAlt]
    rcases List.mem_cons.mp ha with h | h
    · subst h
      rw [if_pos (And.intro hne hp)]
      rfl
    · by_cases hb : b ≠ [] ∧ List.isPrefixOf b s = true
      · rw [if_pos hb]; rfl
      · rw [if_neg hb]
        exact ih h

theorem matchAlt_pos {alts : List (List Char)} {s : List Char} {n : Nat}
    (h : matchAlt alts s = some n) : 1 ≤ n := by
  obtain ⟨a, _, hne, _, hlen⟩ := matchAlt_eq_some h
  cases a with
  | nil => exact absurd rfl hne
  | cons x xs => simp [hlen]

/-! ### Fuel invariance and unfolding equations for `replaceAlts` -/

theorem replaceAltsF_fuel (alts : List (List Char)) (r : List Char) :
    ∀ (f1 : Nat) {f2 : Nat} {s : List Char}, s.length ≤ f1 → s.length ≤ f2 →
      replaceAltsF alts r f1 s = replaceAltsF alts r f2 s := by
  intro f1
  induction f1 with
  | zero =>
    intro f2 s h1 _
    have : s = [] := List.length_eq_zero.mp (Nat.le_zero.mp h1)
    subst this
    cases f2 <;> rfl
  | succ f ih =>
    intro f2 s h1 h2
    cases s with
    | nil => cases f2 <;> rfl
    | cons c rest =>
      cases f2 with
      | zero => simp at h2
      | succ f2' =>
        cases hm : matchAlt alts (c :: rest) with
        | some n =>
          have hn := matchAlt_pos hm
          have hlen : ((c :: rest).drop n).length ≤ f := by
            simp only [List.length_drop, List.length_cons]
            simp only [List.length_cons] at h1
            omega
          have hlen2 : ((c :: rest).drop n).length ≤ f2' := by
            simp only [List.length_drop, List.length_cons]
            simp only [List.length_cons] at h2
            omega
          simp only [replaceAltsF, hm]
          rw [ih hlen hlen2]
        | none =>
          have hlen : rest.length ≤ f := by
            simp only [List.length_cons] at h1; omega
          have hlen2 : rest.length ≤ f2' := by
            simp only [List.length_cons] at h2; omega
          simp only [replaceAltsF, hm]
          rw [ih hlen hlen2]

theorem replaceAlts_nil (alts : List (List Char)) (r : List Char) :
    replaceAlts alts r [] = [] := rfl

theorem replaceAlts_cons_match {alts : List (List Char)} {r : List Char}
    {c : Char} {rest : List Char} {n : Nat} (h : matchAlt alts (c :: rest) = some n) :
    replaceAlts alts r (c :: rest) = r ++ replaceAlts alts r ((c :: rest).drop n) := by
  have hn := matchAlt_pos h
  unfold replaceAlts
  simp only [List.length_cons, replaceAltsF, h]
  congr 1
  exact replaceAltsF_fuel alts r rest.length
    (by simp only [List.length_drop, List.length_cons]; omega) (Nat.le_refl _)

theorem replaceAlts_cons_none {alts : List (List Char)} {r : List Char}
    {c : Char} {rest : List Char} (h : matchAlt alts (c :: rest) = none) :
    replaceAlts alts r (c :: rest) = c :: replaceAlts alts r rest := by
  unfold replaceAlts
  simp only [List.length_cons, replaceAltsF, h]

/-! ## Repairer lemmas: occurrences, idempotence machinery

The key structural facts: every suffix of a `replaceAlts` output is a suffix
of the replacement text followed by the `replaceAlts` image of a suffix of
the input; and when the replacement text is nonempty and shares no character
with the alternatives of a rule, no new occurrence of that rule can be
created, while a full pass eliminates all of the rule's own occurrences. -/

theorem suffix_append_cases {α : Type} {t x y : List α} (h : t <:+ x ++ y) :
    t <:+ y ∨ ∃ x', x' <:+ x ∧ x' ≠ [] ∧ t = x' ++ y := by
  induction x with
  | nil => left; simpa using h
  | cons a x0 ih =>
    rw [List.cons_append, List.suffix_cons_iff] at h
    rcases h with h | h
    · right
      exact ⟨a :: x0, List.suffix_refl _, by simp, by simpa using h⟩
    · rcases ih h with h' | ⟨x', hx1, hx2, hx3⟩
      · left; exact h'
      · right; exact ⟨x', hx1.trans (List.suffix_cons a x0), hx2, hx3⟩

theorem replaceAlts_suffix_struct (alts : List (List Char)) (r : List Char) :
    ∀ (k : Nat) (s t : List Char), s.length ≤ k → t <:+ replaceAlts alts r s →
      ∃ r' s', r' <:+ r ∧ s' <:+ s ∧ t = r' ++ replaceAlts alts r s' := by
  intro k
  induction k with
  | zero =>
    intro s t hlen hsuf
    have : s = [] := List.length_eq_zero.mp (Nat.le_zero.mp hlen)
    subst this
    rw [replaceAlts_nil, List.suffix_nil] at hsuf
    exact ⟨[], [], List.nil_suffix, List.suffix_refl _, by
      rw [hsuf, replaceAlts_nil, List.append_nil]⟩
  | succ k ih =>
    intro s t hlen hsuf
    cases s with
    | nil =>
      rw [replaceAlts_nil, List.suffix_nil] at hsuf
      exact ⟨[], [], List.nil_suffix, List.suffix_refl _, by
        rw [hsuf, replaceAlts_nil, List.append_nil]⟩
    | cons c rest =>
      simp only [List.length_cons] at hlen
      cases hm : matchAlt alts (c :: rest) with
      | none =>
        rw [replaceAlts_cons_none hm] at hsuf
        rcases List.suffix_cons_iff.mp hsuf with h | h
        · refine ⟨[], c :: rest, List.nil_suffix, List.suffix_refl _, ?_⟩
          rw [h, List.nil_append, replaceAlts_cons_none hm]
        · obtain ⟨r', s', hr, hs, ht⟩ := ih rest t (by omega) h
          exact ⟨r', s', hr, hs.trans (List.suffix_cons c rest), ht⟩
      | some n =>
        have hn := matchAlt_pos hm
        rw [replaceAlts_cons_match hm] at hsuf
        rcases suffix_append_cases hsuf with h | ⟨x', hx1, hx2, hx3⟩
        · obtain ⟨r', s', hr, hs, ht⟩ := ih ((c :: rest).drop n) t
            (by simp only [List.length_drop, List.length_cons]; omega) h
          exact ⟨r', s', hr, hs.trans (List.drop_suffix n (c :: rest)), ht⟩
        · exact ⟨x', (c :: rest).drop n, hx1, List.drop_suffix n (c :: rest), hx3⟩

theorem isPrefixOf_cons_iff {α : Type} [BEq α] [LawfulBEq α] {x : α} {a2 : List α}
    {y : α} {z : List α} :
    List.isPrefixOf (x :: a2) (y :: z) = true ↔ x = y ∧ List.isPrefixOf a2 z = true := by
  simp [List.isPrefixOf]

theorem isPrefixOf_replaceAlts {B : List (List Char)} {r : List Char} (hrne : r ≠ []) :
    ∀ (k : Nat) (s a : List Char), s.length ≤ k → (∀ c ∈ r, c ∉ a) →
      List.isPrefixOf a (replaceAlts B r s) = true → List.isPrefixOf a s = true := by
  intro k
  induction k with
  | zero =>
    intro s a hlen _ h
    have : s = [] := List.length_eq_zero.mp (Nat.le_zero.mp hlen)
    subst this
    rwa [replaceAlts_nil] at h
  | succ k ih =>
    intro s a hlen hfr h
    cases s with
    | nil => rwa [replaceAlts_nil] at h
    | cons c rest =>
      simp only [List.length_cons] at hlen
      cases a with
      | nil => simp [List.isPrefixOf]
      | cons x a2 =>
        cases hm : matchAlt B (c :: rest) with
        | none =>
          rw [replaceAlts_cons_none hm] at h
          obtain ⟨hx, h2⟩ := isPrefixOf_cons_iff.mp h
          refine isPrefixOf_cons_iff.mpr ⟨hx, ?_⟩
          exact ih rest a2 (by omega)
            (fun d hd => fun hmem => hfr d hd (List.mem_cons_of_mem _ hmem)) h2
        | some n =>
          rw [replaceAlts_cons_match hm] at h
          cases r with
          | nil => exact absurd rfl hrne
          | cons y r0 =>
            obtain ⟨hx, _⟩ := isPrefixOf_cons_iff.mp h
            exact absurd (List.mem_cons_self x a2)
              (hx ▸ hfr y (List.mem_cons_self y r0))

theorem hasOcc_iff_suffix {A : List (List Char)} {s : List Char} :
    hasOcc A s = true ↔ ∃ t, t <:+ s ∧ (matchAlt A t).isSome = true := by
  induction s with
  | nil =>
    simp only [hasOcc]
    constructor
    · intro h; exact ⟨[], List.suffix_refl _, h⟩
    · rintro ⟨t, ht, hm⟩
      rw [List.suffix_nil] at ht
      rwa [ht] at hm
  | cons c rest ih =>
    simp only [hasOcc, Bool.or_eq_true]
    constructor
    · rintro (h | h)
      · exact ⟨c :: rest, List.suffix_refl _, h⟩
      · obtain ⟨t, ht, hm⟩ := ih.mp h
        exact ⟨t, ht.trans (List.suffix_cons c rest), hm⟩
    · rintro ⟨t, ht, hm⟩
      rcases List.suffix_cons_iff.mp ht with h | h
      · left; rwa [h] at hm
      · right; exact ih.mpr ⟨t, h, hm⟩

theorem isPrefixOf_head_mem {x : Char} {a2 s : List Char}
    (h : List.isPrefixOf (x :: a2) s = true) : x ∈ s := by
  cases s with
  | nil => simp [List.isPrefixOf] at h
  | cons y z => rw [isPrefixOf_cons_iff.mp h |>.1]; exact List.mem_cons_self y z

theorem hasOcc_replaceAlts_self {A : List (List Char)} {r : List Char}
    (hfr : ∀ c ∈ r, ∀ a ∈ A, c ∉ a) (hrne : r ≠ []) (s : List Char) :
    hasOcc A (replaceAlts A r s) = false := by
  cases hb : hasOcc A (replaceAlts A r s) with
  | false => rfl
  | true =>
    exfalso
    obtain ⟨t, hts, hmt⟩ := hasOcc_iff_suffix.mp hb
    obtain ⟨r', s', hr', hs', rfl⟩ :=
      replaceAlts_suffix_struct A r s.length s t (Nat.le_refl _) hts
    obtain ⟨m, hmeq⟩ := Option.isSome_iff_exists.mp hmt
    obtain ⟨a, haA, hane, hapre, _⟩ := matchAlt_eq_some hmeq
    cases r' with
    | cons y r0 =>
      cases a with
      | nil => exact hane rfl
      | cons x a2 =>
        have hx : x = y := (isPrefixOf_cons_iff.mp hapre).1
        have hyr : y ∈ r := hr'.mem (List.mem_cons_self y r0)
        exact hfr y hyr _ haA (hx ▸ List.mem_cons_self x a2)
    | nil =>
      rw [List.nil_append] at hapre
      have hfra : ∀ c ∈ r, c ∉ a := fun c hc => hfr c hc a haA
      have hpre' : List.isPrefixOf a s' = true :=
        isPrefixOf_replaceAlts hrne s'.length s' a (Nat.le_refl _) hfra hapre
      -- `s'` itself starts with a match of `A`, so `replaceAlts` begins with `r`,
      -- and `a` (which avoids the characters of `r`) cannot be its prefix.
      have hsome := matchAlt_isSome_of haA hane hpre'
      cases s' with
      | nil =>
        cases a with
        | nil => exact hane rfl
        | cons x a2 => simp [List.isPrefixOf] at hpre'
      | cons c rest =>
        obtain ⟨m2, hm2⟩ := Option.isSome_iff_exists.mp hsome
        rw [replaceAlts_cons_match hm2] at hapre
        cases r with
        | nil => exact hrne rfl
        | cons y r0 =>
          cases a with
          | nil => exact hane rfl
          | cons x a2 =>
            have hx : x = y := (isPrefixOf_cons_iff.mp hapre).1
            exact hfr y (List.mem_cons_self y r0) _ haA (hx ▸ List.mem_cons_self x a2)

theorem hasOcc_replaceAlts_pres {A B : List (List Char)} {r : List Char}
    (hfr : ∀ c ∈ r, ∀ a ∈ A, c ∉ a) (hrne : r ≠ []) {s : List Char}
    (hs : hasOcc A s = false) : hasOcc A (replaceAlts B r s) = false := by
  cases hb : hasOcc A (replaceAlts B r s) with
  | false => rfl
  | true =>
    exfalso
    obtain ⟨t, hts, hmt⟩ := hasOcc_iff_suffix.mp hb
    obtain ⟨r', s', hr', hs', rfl⟩ :=
      replaceAlts_suffix_struct B r s.length s t (Nat.le_refl _) hts
    obtain ⟨m, hmeq⟩ := Option.isSome_iff_exists.mp hmt
    obtain ⟨a, haA, hane, hapre, _⟩ := matchAlt_eq_some hmeq
    cases r' with
    | cons y r0 =>
      cases a with
      | nil => exact hane rfl
      | cons x a2 =>
        have hx : x = y := (isPrefixOf_cons_iff.mp hapre).1
        have hyr : y ∈ r := hr'.mem (List.mem_cons_self y r0)
        exact hfr y hyr _ haA (hx ▸ List.mem_cons_self x a2)
    | nil =>
      rw [List.nil_append] at hapre
      have hfra : ∀ c ∈ r, c ∉ a := fun c hc => hfr c hc a haA
      have hpre' : List.isPrefixOf a s' = true :=
        isPrefixOf_replaceAlts hrne s'.length s' a (Nat.le_refl _) hfra hapre
      have : hasOcc A s = true :=
        hasOcc_iff_suffix.mpr ⟨s', hs', matchAlt_isSome_of haA hane hpre'⟩
      rw [hs] at this
      exact Bool.noConfusion this

theorem replaceAlts_id_of_no_occ {A : List (List Char)} {r : List Char} :
    ∀ {s : List Char}, hasOcc A s = false → replaceAlts A r s = s := by
  intro s
  induction s with
  | nil => intro _; exact replaceAlts_nil A r
  | cons c rest ih =>
    intro h
    simp only [hasOcc, Bool.or_eq_false_iff] at h
    have hm : matchAlt A (c :: rest) = none := by
      cases hmm : matchAlt A (c :: rest) with
      | none => rfl
      | some n => rw [hmm] at h; exact absurd h.1 (by simp)
    rw [replaceAlts_cons_none hm, ih h.2]

/-- Unfolding of `repair` into its five sequential `re.sub` applications. -/
theorem repair_eq (s : List Char) :
    repair s = replaceAlts [pat5] dashRepl (replaceAlts [pat4] dashRepl
      (replaceAlts [pat3] dashRepl (replaceAlts alts2 dotsRepl
        (replaceAlts alts1 dashRepl s)))) := rfl

theorem hasOcc1_repair (s : List Char) : hasOcc alts1 (repair s) = false := by
  rw [repair_eq]
  apply hasOcc_replaceAlts_pres (by decide) (by decide)
  apply hasOcc_replaceAlts_pres (by decide) (by decide)
  apply hasOcc_replaceAlts_pres (by decide) (by decide)
  apply hasOcc_replaceAlts_pres (by decide) (by decide)
  exact hasOcc_replaceAlts_self (by decide) (by decide) s

theorem hasOcc2_repair (s : List Char) : hasOcc alts2 (repair s) = false := by
  rw [repair_eq]
  apply hasOcc_replaceAlts_pres (by decide) (by decide)
  apply hasOcc_replaceAlts_pres (by decide) (by decide)
  apply hasOcc_replaceAlts_pres (by decide) (by decide)
  exact hasOcc_replaceAlts_self (by decide) (by decide) _

theorem hasOcc3_repair (s : List Char) : hasOcc [pat3] (repair s) = false := by
  rw [repair_eq]
  apply hasOcc_replaceAlts_pres (by decide) (by decide)
  apply hasOcc_replaceAlts_pres (by decide) (by decide)
  exact hasOcc_replaceAlts_self (by decide) (by decide) _

theorem hasOcc4_repair (s : List Char) : hasOcc [pat4] (repair s) = false := by
  rw [repair_eq]
  apply hasOcc_replaceAlts_pres (by decide) (by decide)
  exact hasOcc_replaceAlts_self (by decide) (by decide) _

theorem hasOcc5_repair (s : List Char) : hasOcc [pat5] (repair s) = false :=
  repair_eq s ▸ hasOcc_replaceAlts_self (by decide) (by decide) _

/-- Applying the whole rule list to a string containing no occurrence of any
rule's pattern is the identity. -/
theorem repair_id_of_no_occ {s : List Char}
    (h : ∀ pr ∈ REPLACEMENTS, hasOcc pr.1 s = false) : repair s = s := by
  have h1 := h (alts1, dashRepl) (by simp [REPLACEMENTS])
  have h2 := h (alts2, dotsRepl) (by simp [REPLACEMENTS])
  have h3 := h ([pat3], dashRepl) (by simp [REPLACEMENTS])
  have h4 := h ([pat4], dashRepl) (by simp [REPLACEMENTS])
  have h5 := h ([pat5], dashRepl) (by simp [REPLACEMENTS])
  rw [repair_eq, replaceAlts_id_of_no_occ h1, replaceAlts_id_of_no_occ h2,
    replaceAlts_id_of_no_occ h3, replaceAlts_id_of_no_occ h4,
    replaceAlts_id_of_no_occ h5]

/-- Characters of a `replaceAlts` output come from the input or from the
replacement text. -/
theorem mem_replaceAlts {B : List (List Char)} {r : List Char} :
    ∀ (k : Nat) (s : List Char), s.length ≤ k →
      ∀ c ∈ replaceAlts B r s, c ∈ s ∨ c ∈ r := by
  intro k
  induction k with
  | zero =>
    intro s hlen c hc
    have : s = [] := List.length_eq_zero.mp (Nat.le_zero.mp hlen)
    subst this
    rw [replaceAlts_nil] at hc
    simp at hc
  | succ k ih =>
    intro s hlen c hc
    cases s with
    | nil => rw [replaceAlts_nil] at hc; simp at hc
    | cons x rest =>
      simp only [List.length_cons] at hlen
      cases hm : matchAlt B (x :: rest) with
      | none =>
        rw [replaceAlts_cons_none hm] at hc
        rcases List.mem_cons.mp hc with h | h
        · exact Or.inl (h ▸ List.mem_cons_self x rest)
        · rcases ih rest (by omega) c h with h' | h'
          · exact Or.inl (List.mem_cons_of_mem _ h')
          · exact Or.inr h'
      | some n =>
        have hn := matchAlt_pos hm
        rw [replaceAlts_cons_match hm] at hc
        rcases List.mem_append.mp hc with h | h
        · exact Or.inr h
        · rcases ih ((x :: rest).drop n)
            (by simp only [List.length_drop, List.length_cons]; omega) c h with h' | h'
          · exact Or.inl (List.mem_of_mem_drop h')
          · exact Or.inr h'

/-! ### Context lemmas used for the longest-pattern-first claim -/

/-- Scanning a region whose characters start no alternative leaves it
untouched and continues on the remainder. -/
theorem replaceAlts_append_of_headFresh {B : List (List Char)} {r : List Char} :
    ∀ (u w : List Char), (∀ a ∈ B, ∀ c, a.head? = some c → c ∉ u) →
      replaceAlts B r (u ++ w) = u ++ replaceAlts B r w := by
  intro u
  induction u with
  | nil => intro w _; rw [List.nil_append, List.nil_append]
  | cons x u0 ih =>
    intro w hfresh
    have hm : matchAlt B (x :: (u0 ++ w)) = none := by
      cases hmm : matchAlt B (x :: (u0 ++ w)) with
      | none => rfl
      | some n =>
        exfalso
        obtain ⟨a, haB, hane, hapre, _⟩ := matchAlt_eq_some hmm
        cases a with
        | nil => exact hane rfl
        | cons y a2 =>
          have hy : y = x := (isPrefixOf_cons_iff.mp hapre).1
          exact hfresh _ haB y rfl (hy ▸ List.mem_cons_self x u0)
    rw [List.cons_append, replaceAlts_cons_none hm,
      ih w fun a ha c hc hmem =>
        hfresh a ha c hc (List.mem_cons_of_mem _ hmem)]
    rfl

theorem replaceAlts_cons_match' {alts : List (List Char)} {r s : List Char} {n : Nat}
    (hs : s ≠ []) (h : matchAlt alts s = some n) :
    replaceAlts alts r s = r ++ replaceAlts alts r (s.drop n) := by
  cases s with
  | nil => exact absurd rfl hs
  | cons c rest => exact replaceAlts_cons_match h

/-- A string whose characters start no alternative is left unchanged. -/
theorem replaceAlts_id_of_headFresh {B : List (List Char)} {r : List Char}
    {s : List Char} (hfresh : ∀ a ∈ B, ∀ c, a.head? = some c → c ∉ s) :
    replaceAlts B r s = s := by
  have := replaceAlts_append_of_headFresh (B := B) (r := r) s [] hfresh
  rwa [List.append_nil, replaceAlts_nil, List.append_nil] at this

/-- Auxiliary: characters of the repaired string come from the input or are
the literal `-` or `.` used by the replacement texts. -/
theorem mem_repair (s : List Char) (c : Char) (hc : c ∈ repair s) :
    c ∈ s ∨ c = Char.ofNat 0x2D ∨ c = Char.ofNat 0x2E := by
  have d1 : ∀ d ∈ dashRepl, d = Char.ofNat 0x2D := by decide
  have d2 : ∀ d ∈ dotsRepl, d = Char.ofNat 0x2E := by decide
  rw [repair_eq] at hc
  rcases mem_replaceAlts _ _ (Nat.le_refl _) c hc with hc | h
  · rcases mem_replaceAlts _ _ (Nat.le_refl _) c hc with hc | h
    · rcases mem_replaceAlts _ _ (Nat.le_refl _) c hc with hc | h
      · rcases mem_replaceAlts _ _ (Nat.le_refl _) c hc with hc | h
        · rcases mem_replaceAlts _ _ (Nat.le_refl _) c hc with hc | h
          · exact Or.inl hc
          · exact Or.inr (Or.inl (d1 c h))
        · exact Or.inr (Or.inr (d2 c h))
      · exact Or.inr (Or.inl (d1 c h))
    · exact Or.inr (Or.inl (d1 c h))
  · exact Or.inr (Or.inl (d1 c h))

/-! ## UTF-8 decode/encode lemmas -/

theorem char_valid (c : Char) :
    c.toNat < 0xD800 ∨ (0xDFFF < c.toNat ∧ c.toNat < 0x110000) := by
  rcases c.valid with h | ⟨h1, h2⟩
  · left; exact UInt32.toNat_lt_of_lt (by decide) h
  · right
    exact ⟨UInt32.lt_toNat_of_lt (by decide) h1, UInt32.toNat_lt_of_lt (by decide) h2⟩

theorem toNat_charOfNat {n : Nat} (h : n.isValidChar) : (Char.ofNat n).toNat = n := by
  rw [Char.ofNat, dif_pos h]
  rfl

theorem decodeUtf8F_fuel :
    ∀ (f1 : Nat) {f2 : Nat} {l : List Nat}, l.length ≤ f1 → l.length ≤ f2 →
      decodeUtf8F f1 l = decodeUtf8F f2 l := by
  intro f1
  induction f1 with
  | zero =>
    intro f2 l h1 _
    have : l = [] := List.length_eq_zero.mp (Nat.le_zero.mp h1)
    subst this
    cases f2 <;> rfl
  | succ f ih =>
    intro f2 l h1 h2
    cases l with
    | nil => cases f2 <;> rfl
    | cons b rest =>
      cases f2 with
      | zero => simp at h2
      | succ f2' =>
        simp only [List.length_cons] at h1 h2
        simp only [decodeUtf8F]
        congr 1
        exact ih (by simp only [List.length_drop]; omega)
          (by simp only [List.length_drop]; omega)

theorem decodeUtf8Replace_cons (b : Nat) (rest : List Nat) :
    decodeUtf8Replace (b :: rest) =
      (utf8Step b rest).1 :: decodeUtf8Replace (rest.drop (utf8Step b rest).2) := by
  unfold decodeUtf8Replace
  simp only [List.length_cons, decodeUtf8F]
  congr 1
  exact decodeUtf8F_fuel rest.length
    (by simp only [List.length_drop]; omega) (Nat.le_refl _)

theorem decodeUtf8Replace_cons' {b : Nat} {rest : List Nat} {c : Char} {k : Nat}
    (h : utf8Step b rest = (c, k)) :
    decodeUtf8Replace (b :: rest) = c :: decodeUtf8Replace (rest.drop k) := by
  rw [decodeUtf8Replace_cons, h]

theorem utf8Step_enc1 (n : Nat) (h : n < 0x80) (bs : List Nat) :
    utf8Step n bs = (Char.ofNat n, 0) := by
  simp only [utf8Step]
  rw [if_pos h]

theorem utf8Step_enc2 (n : Nat) (h1 : 0x80 ≤ n) (h2 : n < 0x800) (bs : List Nat) :
    utf8Step (0xC0 + n / 0x40) ((0x80 + n % 0x40) :: bs) = (Char.ofNat n, 1) := by
  have e3 : lo2 (0xC0 + n / 0x40) = 0x80 := by
    rw [lo2, if_neg (by omega), if_neg (by omega)]
  have e4 : hi2 (0xC0 + n / 0x40) = 0xBF := by
    rw [hi2, if_neg (by omega), if_neg (by omega)]
  simp only [utf8Step, e3, e4]
  rw [if_neg (by omega), if_pos (by omega : 0xC2 ≤ 0xC0 + n / 0x40 ∧ 0xC0 + n / 0x40 ≤ 0xF4),
    if_pos (by omega : 0x80 ≤ 0x80 + n % 0x40 ∧ 0x80 + n % 0x40 ≤ 0xBF),
    if_pos (by omega : 0xC0 + n / 0x40 ≤ 0xDF)]
  have hval : (0xC0 + n / 0x40 - 0xC0) * 0x40 + (0x80 + n % 0x40 - 0x80) = n := by omega
  rw [hval]

theorem utf8Step_enc3 (n : Nat) (h1 : 0x800 ≤ n) (h2 : n < 0x10000)
    (hs : n < 0xD800 ∨ 0xDFFF < n) (bs : List Nat) :
    utf8Step (0xE0 + n / 0x1000) ((0x80 + n / 0x40 % 0x40) :: (0x80 + n % 0x40) :: bs) =
      (Char.ofNat n, 2) := by
  have e3 : lo2 (0xE0 + n / 0x1000) ≤ 0x80 + n / 0x40 % 0x40 := by
    rw [lo2]
    split_ifs with hA hB <;> omega
  have e4 : 0x80 + n / 0x40 % 0x40 ≤ hi2 (0xE0 + n / 0x1000) := by
    rw [hi2]
    split_ifs with hA hB <;> omega
  simp only [utf8Step]
  rw [if_neg (by omega),
    if_pos (by omega : 0xC2 ≤ 0xE0 + n / 0x1000 ∧ 0xE0 + n / 0x1000 ≤ 0xF4),
    if_pos ⟨e3, e4⟩, if_neg (by omega : ¬ 0xE0 + n / 0x1000 ≤ 0xDF),
    if_pos (by omega : 0x80 ≤ 0x80 + n % 0x40 ∧ 0x80 + n % 0x40 ≤ 0xBF),
    if_pos (by omega : 0xE0 + n / 0x1000 ≤ 0xEF)]
  have hval : (0xE0 + n / 0x1000 - 0xE0) * 0x1000 + (0x80 + n / 0x40 % 0x40 - 0x80) * 0x40 +
      (0x80 + n % 0x40 - 0x80) = n := by omega
  rw [hval]

theorem utf8Step_enc4 (n : Nat) (h1 : 0x10000 ≤ n) (h2 : n < 0x110000) (bs : List Nat) :
    utf8Step (0xF0 + n / 0x40000)
      ((0x80 + n / 0x1000 % 0x40) :: (0x80 + n / 0x40 % 0x40) :: (0x80 + n % 0x40) :: bs) =
      (Char.ofNat n, 3) := by
  have e3 : lo2 (0xF0 + n / 0x40000) ≤ 0x80 + n / 0x1000 % 0x40 := by
    rw [lo2]
    split_ifs with hA hB <;> omega
  have e4 : 0x80 + n / 0x1000 % 0x40 ≤ hi2 (0xF0 + n / 0x40000) := by
    rw [hi2]
    split_ifs with hA hB <;> omega
  simp only [utf8Step]
  rw [if_neg (by omega),
    if_pos (by omega : 0xC2 ≤ 0xF0 + n / 0x40000 ∧ 0xF0 + n / 0x40000 ≤ 0xF4),
    if_pos ⟨e3, e4⟩, if_neg (by omega : ¬ 0xF0 + n / 0x40000 ≤ 0xDF),
    if_pos (by omega : 0x80 ≤ 0x80 + n / 0x40 % 0x40 ∧ 0x80 + n / 0x40 % 0x40 ≤ 0xBF),
    if_neg (by omega : ¬ 0xF0 + n / 0x40000 ≤ 0xEF),
    if_pos (by omega : 0x80 ≤ 0x80 + n % 0x40 ∧ 0x80 + n % 0x40 ≤ 0xBF)]
  have hval : (0xF0 + n / 0x40000 - 0xF0) * 0x40000 + (0x80 + n / 0x1000 % 0x40 - 0x80) * 0x1000 +
      (0x80 + n / 0x40 % 0x40 - 0x80) * 0x40 + (0x80 + n % 0x40 - 0x80) = n := by omega
  rw [hval]

/-- Decoding an encoded character consumes exactly that character's bytes. -/
theorem decodeUtf8Replace_encodeChar (c : Char) (bs : List Nat) :
    decodeUtf8Replace (utf8EncodeChar c ++ bs) = c :: decodeUtf8Replace bs := by
  have hv := char_valid c
  by_cases h1 : c.toNat < 0x80
  · rw [show utf8EncodeChar c = [c.toNat] from by rw [utf8EncodeChar, if_pos h1],
      List.singleton_append,
      decodeUtf8Replace_cons' (utf8Step_enc1 c.toNat h1 bs),
      Char.ofNat_toNat, List.drop_zero]
  · by_cases h2 : c.toNat < 0x800
    · rw [show utf8EncodeChar c = [0xC0 + c.toNat / 0x40, 0x80 + c.toNat % 0x40] from by
        rw [utf8EncodeChar, if_neg h1, if_pos h2]]
      simp only [List.cons_append, List.nil_append]
      rw [decodeUtf8Replace_cons' (utf8Step_enc2 c.toNat (by omega) h2 bs),
        Char.ofNat_toNat]
      rfl
    · by_cases h3 : c.toNat < 0x10000
      · rw [show utf8EncodeChar c =
            [0xE0 + c.toNat / 0x1000, 0x80 + c.toNat / 0x40 % 0x40, 0x80 + c.toNat % 0x40] from by
          rw [utf8EncodeChar, if_neg h1, if_neg h2, if_pos h3]]
        simp only [List.cons_append, List.nil_append]
        rw [decodeUtf8Replace_cons'
            (utf8Step_enc3 c.toNat (by omega) h3 (by omega) bs),
          Char.ofNat_toNat]
        rfl
      · rw [show utf8EncodeChar c =
            [0xF0 + c.toNat / 0x40000, 0x80 + c.toNat / 0x1000 % 0x40,
             0x80 + c.toNat / 0x40 % 0x40, 0x80 + c.toNat % 0x40] from by
          rw [utf8EncodeChar, if_neg h1, if_neg h2, if_neg h3]]
        simp only [List.cons_append, List.nil_append]
        rw [decodeUtf8Replace_cons'
            (utf8Step_enc4 c.toNat (by omega) (by omega) bs),
          Char.ofNat_toNat]
        rfl

/-- UTF-8 round trip: the encoder's output decodes back to the same string
(in particular it is valid UTF-8: no U+FFFD substitution happens). -/
theorem decodeUtf8Replace_encode (cs : List Char) :
    decodeUtf8Replace (utf8Encode cs) = cs := by
  induction cs with
  | nil => rfl
  | cons c cs ih =>
    rw [show utf8Encode (c :: cs) = utf8EncodeChar c ++ utf8Encode cs from rfl,
      decodeUtf8Replace_encodeChar, ih]

/-- Evaluation of `read_text` on an input starting with no recognized BOM: plain
replace-mode UTF-8 decoding of the whole input. -/
theorem read_text_eq_utf8 {raw : List Nat}
    (h1 : ¬ List.isPrefixOf [0xFF, 0xFE] raw = true)
    (h2 : ¬ List.isPrefixOf [0xFE, 0xFF] raw = true)
    (h3 : ¬ List.isPrefixOf [0xEF, 0xBB, 0xBF] raw = true) :
    read_text raw = some (decodeUtf8Replace raw) := by
  rw [read_text, if_neg (by tauto), if_neg h3]

/-! ## ASCII lemmas (for the byte-identity claim) -/

theorem decodeUtf8Replace_ascii :
    ∀ {raw : List Nat}, (∀ b ∈ raw, b < 0x80) →
      decodeUtf8Replace raw = raw.map Char.ofNat := by
  intro raw
  induction raw with
  | nil => intro _; rfl
  | cons b rest ih =>
    intro h
    have hb : b < 0x80 := h b (List.mem_cons_self b rest)
    rw [decodeUtf8Replace_cons' (utf8Step_enc1 b hb rest), List.drop_zero, List.map_cons,
      ih (fun x hx => h x (List.mem_cons_of_mem _ hx))]

theorem utf8Encode_ascii :
    ∀ {raw : List Nat}, (∀ b ∈ raw, b < 0x80) →
      utf8Encode (raw.map Char.ofNat) = raw := by
  intro raw
  induction raw with
  | nil => intro _; rfl
  | cons b rest ih =>
    intro h
    have hb : b < 0x80 := h b (List.mem_cons_self b rest)
    have htn : (Char.ofNat b).toNat = b := toNat_charOfNat (Or.inl (by omega))
    rw [List.map_cons,
      show utf8Encode (Char.ofNat b :: rest.map Char.ofNat) =
        utf8EncodeChar (Char.ofNat b) ++ utf8Encode (rest.map Char.ofNat) from rfl,
      show utf8EncodeChar (Char.ofNat b) = [b] from by
        rw [utf8EncodeChar, htn, if_pos hb],
      ih (fun x hx => h x (List.mem_cons_of_mem _ hx)), List.singleton_append]

/-- No rule pattern can match inside pure-ASCII text: every alternative's
first character is a code point of at least `0x80`. -/
theorem repair_ascii {raw : List Nat} (h : ∀ b ∈ raw, b < 0x80) :
    repair (raw.map Char.ofNat) = raw.map Char.ofNat := by
  have hfresh : ∀ (B : List (List Char)),
      (∀ a ∈ B, ∀ c, a.head? = some c → 0x80 ≤ c.toNat) →
      ∀ a ∈ B, ∀ c, a.head? = some c → c ∉ raw.map Char.ofNat := by
    intro B hB a ha c hc hmem
    obtain ⟨b, hb, rfl⟩ := List.mem_map.mp hmem
    have h1 := hB a ha _ hc
    have hlt := h b hb
    have htn : (Char.ofNat b).toNat = b := toNat_charOfNat (Or.inl (by omega))
    omega
  rw [repair_eq,
    replaceAlts_id_of_headFresh (hfresh alts1 (by decide)),
    replaceAlts_id_of_headFresh (hfresh alts2 (by decide)),
    replaceAlts_id_of_headFresh (hfresh [pat3] (by decide)),
    replaceAlts_id_of_headFresh (hfresh [pat4] (by decide)),
    replaceAlts_id_of_headFresh (hfresh [pat5] (by decide))]

/-! ## UTF-16 round-trip lemmas -/

/-- Unconditional unfolding of `decodeUtf16` on a leading non-surrogate code
unit, whatever the shape of the remaining bytes. -/
theorem decodeUtf16_cons_bmp {be : Bool} {b0 b1 : Nat} {rest : List Nat}
    (h : unit16 be b0 b1 < 0xD800 ∨ 0xDFFF < unit16 be b0 b1) :
    decodeUtf16 be (b0 :: b1 :: rest) =
      (decodeUtf16 be rest).map fun cs => Char.ofNat (unit16 be b0 b1) :: cs := by
  match rest with
  | [] =>
    rw [decodeUtf16.eq_4 be b0 b1 [] (by intro x y z hh; exact List.noConfusion hh),
      if_pos h]
  | [b2] =>
    rw [decodeUtf16.eq_4 be b0 b1 [b2] (by intro x y z hh; simp at hh), if_pos h]
  | b2 :: b3 :: rest2 =>
    rw [decodeUtf16.eq_3, if_pos h]

/-- Unfolding of `decodeUtf16` on a well-formed surrogate pair. -/
theorem decodeUtf16_cons_surr {be : Bool} {b0 b1 b2 b3 : Nat} {rest2 : List Nat}
    (h1 : ¬ (unit16 be b0 b1 < 0xD800 ∨ 0xDFFF < unit16 be b0 b1))
    (h2 : unit16 be b0 b1 < 0xDC00)
    (h3 : 0xDC00 ≤ unit16 be b2 b3 ∧ unit16 be b2 b3 ≤ 0xDFFF) :
    decodeUtf16 be (b0 :: b1 :: b2 :: b3 :: rest2) =
      (decodeUtf16 be rest2).map fun cs =>
        Char.ofNat (0x10000 + (unit16 be b0 b1 - 0xD800) * 0x400 +
          (unit16 be b2 b3 - 0xDC00)) :: cs := by
  rw [decodeUtf16.eq_3, if_neg h1, if_pos h2, if_pos h3]

theorem decodeUtf16_encodeChar (be : Bool) (c : Char) (bs : List Nat) :
    decodeUtf16 be (utf16EncodeChar be c ++ bs) =
      (decodeUtf16 be bs).map fun cs => c :: cs := by
  have hv := char_valid c
  by_cases h1 : c.toNat < 0x10000
  · have hok : c.toNat < 0xD800 ∨ 0xDFFF < c.toNat := by omega
    rw [show utf16EncodeChar be c = utf16Unit be c.toNat from by
      rw [utf16EncodeChar, if_pos h1]]
    cases be
    · show decodeUtf16 false (c.toNat % 256 :: c.toNat / 256 :: bs) = _
      have hu : unit16 false (c.toNat % 256) (c.toNat / 256) = c.toNat := by
        simp only [unit16]; omega
      rw [decodeUtf16_cons_bmp (by rw [hu]; exact hok), hu, Char.ofNat_toNat]
    · show decodeUtf16 true (c.toNat / 256 :: c.toNat % 256 :: bs) = _
      have hu : unit16 true (c.toNat / 256) (c.toNat % 256) = c.toNat := by
        simp only [unit16]; omega
      rw [decodeUtf16_cons_bmp (by rw [hu]; exact hok), hu, Char.ofNat_toNat]
  · have h2 : c.toNat < 0x110000 := by omega
    rw [show utf16EncodeChar be c =
        utf16Unit be (0xD800 + (c.toNat - 0x10000) / 0x400) ++
        utf16Unit be (0xDC00 + (c.toNat - 0x10000) % 0x400) from by
      rw [utf16EncodeChar, if_neg h1]]
    cases be
    · show decodeUtf16 false
        ((0xD800 + (c.toNat - 0x10000) / 0x400) % 256 ::
         (0xD800 + (c.toNat - 0x10000) / 0x400) / 256 ::
         (0xDC00 + (c.toNat - 0x10000) % 0x400) % 256 ::
         (0xDC00 + (c.toNat - 0x10000) % 0x400) / 256 :: bs) = _
      have hu01 : unit16 false ((0xD800 + (c.toNat - 0x10000) / 0x400) % 256)
          ((0xD800 + (c.toNat - 0x10000) / 0x400) / 256) =
          0xD800 + (c.toNat - 0x10000) / 0x400 := by
        simp only [unit16]; omega
      have hu23 : unit16 false ((0xDC00 + (c.toNat - 0x10000) % 0x400) % 256)
          ((0xDC00 + (c.toNat - 0x10000) % 0x400) / 256) =
          0xDC00 + (c.toNat - 0x10000) % 0x400 := by
        simp only [unit16]; omega
      rw [decodeUtf16_cons_surr (by rw [hu01]; omega) (by rw [hu01]; omega)
          (by rw [hu23]; omega), hu01, hu23,
        show 0x10000 + (0xD800 + (c.toNat - 0x10000) / 0x400 - 0xD800) * 0x400 +
          (0xDC00 + (c.toNat - 0x10000) % 0x400 - 0xDC00) = c.toNat from by omega,
        Char.ofNat_toNat]
    · show decodeUtf16 true
        ((0xD800 + (c.toNat - 0x10000) / 0x400) / 256 ::
         (0xD800 + (c.toNat - 0x10000) / 0x400) % 256 ::
         (0xDC00 + (c.toNat - 0x10000) % 0x400) / 256 ::
         (0xDC00 + (c.toNat - 0x10000) % 0x400) % 256 :: bs) = _
      have hu01 : unit16 true ((0xD800 + (c.toNat - 0x10000) / 0x400) / 256)
          ((0xD800 + (c.toNat - 0x10000) / 0x400) % 256) =
          0xD800 + (c.toNat - 0x10000) / 0x400 := by
        simp only [unit16]; omega
      have hu23 : unit16 true ((0xDC00 + (c.toNat - 0x10000) % 0x400) / 256)
          ((0xDC00 + (c.toNat - 0x10000) % 0x400) % 256) =
          0xDC00 + (c.toNat - 0x10000) % 0x400 := by
        simp only [unit16]; omega
      rw [decodeUtf16_cons_surr (by rw [hu01]; omega) (by rw [hu01]; omega)
          (by rw [hu23]; omega), hu01, hu23,
        show 0x10000 + (0xD800 + (c.toNat - 0x10000) / 0x400 - 0xD800) * 0x400 +
          (0xDC00 + (c.toNat - 0x10000) % 0x400 - 0xDC00) = c.toNat from by omega,
        Char.ofNat_toNat]

/-- UTF-16 round trip for both byte orders. -/
theorem decodeUtf16_encode (be : Bool) (cs : List Char) :
    decodeUtf16 be (utf16Encode be cs) = some cs := by
  induction cs with
  | nil => rfl
  | cons c cs ih =>
    rw [show utf16Encode be (c :: cs) = utf16EncodeChar be c ++ utf16Encode be cs from rfl,
      decodeUtf16_encodeChar, ih]
    rfl

end Repair

namespace Claims

open Repair

/-- C2: the Repairer is idempotent: applying the ordered replacement list
once and then again yields the same string as applying it once — after one
pass no rule's pattern occurs anymore (replacement texts are nonempty and
share no character with any pattern), so the second pass is the identity. -/
theorem C2_repair_idempotent (s : List Char) : repair (repair s) = repair s := by
  apply repair_id_of_no_occ
  intro pr hpr
  simp only [REPLACEMENTS, List.mem_cons, List.not_mem_nil, or_false] at hpr
  rcases hpr with rfl | rfl | rfl | rfl | rfl
  · exact hasOcc1_repair s
  · exact hasOcc2_repair s
  · exact hasOcc3_repair s
  · exact hasOcc4_repair s
  · exact hasOcc5_repair s

/-- C10: every character of the Repairer's output occurs in the input or is
one of the literal replacement characters `-` and `.`; and on a text with no
occurrence of any of the five rule patterns the Repairer is the identity. -/
theorem C10_repair_conservative (s : List Char) :
    (∀ c ∈ repair s, c ∈ s ∨ c = Char.ofNat 0x2D ∨ c = Char.ofNat 0x2E) ∧
    ((∀ pr ∈ REPLACEMENTS, hasOcc pr.1 s = false) → repair s = s) :=
  ⟨mem_repair s, repair_id_of_no_occ⟩

/-- Witness for C10 at the one-character ASCII text `h`: the conservativity
conjunct, and the identity conjunct with its no-occurrence hypothesis
discharged by computation. -/
theorem C10_witness :
    (∀ c ∈ repair [Char.ofNat 0x68],
      c ∈ [Char.ofNat 0x68] ∨ c = Char.ofNat 0x2D ∨ c = Char.ofNat 0x2E) ∧
    repair [Char.ofNat 0x68] = [Char.ofNat 0x68] :=
  ⟨(C10_repair_conservative [Char.ofNat 0x68]).1,
   (C10_repair_conservative [Char.ofNat 0x68]).2 (by decide)⟩

/-- C3: the three quote-adjacent-dash rules run longest-pattern-first, so an
occurrence of the longest corrupted sequence `pat3` (in a context that does
not itself contain pattern characters) is replaced by a single `-` as a
whole: no residual suffix (`a`+U+064F or U+064F) survives, as it would if a
shorter rule had consumed only a prefix. -/
theorem C3_longest_pattern_first (u v : List Char)
    (hu : ∀ c ∈ u, c ∉ patChars) (hv : ∀ c ∈ v, c ∉ patChars) :
    repair (u ++ (pat3 ++ v)) = u ++ Char.ofNat 0x2D :: v := by
  have mkFresh : ∀ (B : List (List Char)),
      (∀ a ∈ B, ∀ c, a.head? = some c → c ∈ patChars ∧ c ∉ pat3) →
      ∀ a ∈ B, ∀ c, a.head? = some c → c ∉ (u ++ (pat3 ++ v)) := by
    intro B hB a ha c hc hmem
    obtain ⟨hcp, hcnp⟩ := hB a ha c hc
    rcases List.mem_append.mp hmem with h | h
    · exact hu c h hcp
    · rcases List.mem_append.mp h with h | h
      · exact hcnp h
      · exact hv c h hcp
  have mkFresh2 : ∀ (B : List (List Char)),
      (∀ a ∈ B, ∀ c, a.head? = some c → c ∈ patChars ∧ c ≠ Char.ofNat 0x2D) →
      ∀ a ∈ B, ∀ c, a.head? = some c → c ∉ (u ++ Char.ofNat 0x2D :: v) := by
    intro B hB a ha c hc hmem
    obtain ⟨hcp, hcd⟩ := hB a ha c hc
    rcases List.mem_append.mp hmem with h | h
    · exact hu c h hcp
    · rcases List.mem_cons.mp h with h | h
      · exact hcd h
      · exact hv c h hcp
  have freshU3 : ∀ a ∈ [pat3], ∀ c, a.head? = some c → c ∉ u := by
    intro a ha c hc hmem
    exact hu c hmem
      ((by decide : ∀ a ∈ [pat3], ∀ c, a.head? = some c → c ∈ patChars) a ha c hc)
  have freshV3 : ∀ a ∈ [pat3], ∀ c, a.head? = some c → c ∉ v := by
    intro a ha c hc hmem
    exact hv c hmem
      ((by decide : ∀ a ∈ [pat3], ∀ c, a.head? = some c → c ∈ patChars) a ha c hc)
  have hm3 : matchAlt [pat3] (pat3 ++ v) = some 6 := by
    rw [matchAlt, if_pos (And.intro (by decide) (isPrefixOf_append pat3 v))]
    rfl
  rw [repair_eq,
    replaceAlts_id_of_headFresh (mkFresh alts1 (by decide)),
    replaceAlts_id_of_headFresh (mkFresh alts2 (by decide)),
    replaceAlts_append_of_headFresh u (pat3 ++ v) freshU3,
    replaceAlts_cons_match' (by simp [pat3]) hm3,
    List.drop_left' (by decide : pat3.length = 6),
    replaceAlts_id_of_headFresh freshV3]
  simp only [dashRepl, List.singleton_append]
  rw [replaceAlts_id_of_headFresh (mkFresh2 [pat4] (by decide)),
    replaceAlts_id_of_headFresh (mkFresh2 [pat5] (by decide))]

/-- Witness for C3 at `u = "x"`, `v = "y"`: the text `x` + `pat3` + `y`
repairs to `x-y`. -/
theorem C3_witness :
    repair ([Char.ofNat 0x78] ++ (pat3 ++ [Char.ofNat 0x79])) =
      [Char.ofNat 0x78] ++ Char.ofNat 0x2D :: [Char.ofNat 0x79] :=
  C3_longest_pattern_first [Char.ofNat 0x78] [Char.ofNat 0x79] (by decide) (by decide)

/-- C4: an input beginning with `FF FE` has the BOM dropped and the rest
decoded as little-endian UTF-16; `FE FF` likewise as big-endian; and the
decoders invert the corresponding encoders (so the remainder really is
interpreted as UTF-16 text of the matching endianness, the BOM itself never
reaching the output). -/
theorem C4_utf16_bom_dispatch (bs : List Nat) :
    read_text (0xFF :: 0xFE :: bs) = decodeUtf16 false bs ∧
    read_text (0xFE :: 0xFF :: bs) = decodeUtf16 true bs ∧
    (∀ cs : List Char,
      decodeUtf16 false (utf16Encode false cs) = some cs ∧
      decodeUtf16 true (utf16Encode true cs) = some cs) := by
  refine ⟨?_, ?_, fun cs => ⟨decodeUtf16_encode false cs, decodeUtf16_encode true cs⟩⟩
  · rw [read_text, if_pos (Or.inl (by simp [List.isPrefixOf])),
      if_pos (by simp [List.isPrefixOf])]
    rfl
  · rw [read_text, if_pos (Or.inr (by simp [List.isPrefixOf])),
      if_neg (by simp [List.isPrefixOf])]
    rfl

/-- C5: whenever the pipeline succeeds, the output bytes are exactly the
BOM-less UTF-8 encoding of the repaired text, and decoding them back yields
that very text with no replacement characters introduced — i.e. the output
file is always valid UTF-8 with no byte-order mark added by the writer. -/
theorem C5_output_valid_utf8 (raw out : List Nat) (h : pipeline raw = some out) :
    ∃ t, read_text raw = some t ∧ out = utf8Encode (repair t) ∧
      decodeUtf8Replace out = repair t := by
  obtain ⟨t, ht⟩ : ∃ t, read_text raw = some t := by
    cases hrt : read_text raw with
    | none => rw [pipeline, hrt] at h; exact absurd h (by simp)
    | some t => exact ⟨t, rfl⟩
  rw [pipeline, ht] at h
  simp only [Option.map_some', Option.some.injEq] at h
  exact ⟨t, ht, h.symm, by rw [← h]; exact decodeUtf8Replace_encode (repair t)⟩

/-- Witness for C5 at the one-byte ASCII input `h`. -/
theorem C5_witness :
    ∃ t, read_text [0x68] = some t ∧ ([0x68] : List Nat) = utf8Encode (repair t) ∧
      decodeUtf8Replace [0x68] = repair t :=
  C5_output_valid_utf8 [0x68] [0x68] (by decide)

/-- C9: on an all-ASCII input (which necessarily has no BOM and no pattern
occurrence, every pattern starting with a character of at least `0x80`), the
whole decode–repair–encode pipeline is the identity on the bytes. -/
theorem C9_ascii_identity (raw : List Nat) (h : ∀ b ∈ raw, b < 0x80) :
    pipeline raw = some raw := by
  have hbom : ∀ (x : Nat) (p : List Nat), 0x80 ≤ x →
      ¬ List.isPrefixOf (x :: p) raw = true := by
    intro x p hx hc
    cases raw with
    | nil => simp [List.isPrefixOf] at hc
    | cons b rest =>
      have hxb : x = b := (isPrefixOf_cons_iff.mp hc).1
      have := h b (List.mem_cons_self b rest)
      omega
  rw [pipeline,
    read_text_eq_utf8 (hbom 0xFF [0xFE] (by omega)) (hbom 0xFE [0xFF] (by omega))
      (hbom 0xEF [0xBB, 0xBF] (by omega)),
    Option.map_some', decodeUtf8Replace_ascii h, repair_ascii h, utf8Encode_ascii h]

/-- Witness for C9 at the two-byte ASCII input `hi`. -/
theorem C9_witness : pipeline [0x68, 0x69] = some [0x68, 0x69] :=
  C9_ascii_identity [0x68, 0x69] (by decide)

/-- C1 counterexample: on the bytes `FF FE 41` — a UTF-16 little-endian BOM
followed by a single (odd, hence malformed) byte — `read_text` does not
return a string: `raw.decode("utf-16")` is strict and the
`UnicodeDecodeError` ("truncated data") propagates to the caller. -/
theorem C1_counterexample : read_text [0xFF, 0xFE, 0x41] = none := by decide

/-- C1 amended: for every input that does not begin with a UTF-16 BOM
(`FF FE` or `FE FF`), `read_text` returns a string without raising
(undecodable bytes degrade to U+FFFD); with a UTF-16 BOM the decode is
strict and may raise. -/
theorem C1_amended_no_utf16_bom_total (raw : List Nat)
    (h1 : ¬ List.isPrefixOf [0xFF, 0xFE] raw = true)
    (h2 : ¬ List.isPrefixOf [0xFE, 0xFF] raw = true) :
    (read_text raw).isSome = true := by
  rw [read_text, if_neg (by tauto)]
  by_cases h3 : List.isPrefixOf [0xEF, 0xBB, 0xBF] raw = true
  · rw [if_pos h3]; rfl
  · rw [if_neg h3]; rfl

/-- Witness for the amended C1 at the single byte `41`. -/
theorem C1_witness :
    (¬ List.isPrefixOf [0xFF, 0xFE] [0x41] = true) ∧
    (¬ List.isPrefixOf [0xFE, 0xFF] [0x41] = true) ∧
    (read_text [0x41]).isSome = true :=
  ⟨by decide, by decide, C1_amended_no_utf16_bom_total [0x41] (by decide) (by decide)⟩

/-- C6: an input beginning with `EF BB BF` has that three-byte prefix
stripped and the remainder decoded as UTF-8 with `errors="replace"`
(malformed sequences become U+FFFD, nothing is raised). -/
theorem C6_utf8_sig_stripped (bs : List Nat) :
    read_text (0xEF :: 0xBB :: 0xBF :: bs) = some (decodeUtf8Replace bs) := by
  rw [read_text, if_neg (by simp [List.isPrefixOf]), if_pos (by simp [List.isPrefixOf])]
  rfl

/-- C7: an input beginning with none of the recognized BOMs is decoded
whole as UTF-8 with `errors="replace"`: always `some`, with U+FFFD standing
in for ill-formed byte sequences. -/
theorem C7_no_bom_utf8 (raw : List Nat)
    (h1 : ¬ List.isPrefixOf [0xFF, 0xFE] raw = true)
    (h2 : ¬ List.isPrefixOf [0xFE, 0xFF] raw = true)
    (h3 : ¬ List.isPrefixOf [0xEF, 0xBB, 0xBF] raw = true) :
    read_text raw = some (decodeUtf8Replace raw) := by
  rw [read_text, if_neg (by tauto), if_neg h3]

/-- Witness for C7 at the bytes `41 80`: no BOM, and the invalid `80` byte
decodes to U+FFFD rather than raising. -/
theorem C7_witness :
    (¬ List.isPrefixOf [0xFF, 0xFE] [0x41, 0x80] = true) ∧
    (¬ List.isPrefixOf [0xFE, 0xFF] [0x41, 0x80] = true) ∧
    (¬ List.isPrefixOf [0xEF, 0xBB, 0xBF] [0x41, 0x80] = true) ∧
    read_text [0x41, 0x80] = some (decodeUtf8Replace [0x41, 0x80]) :=
  ⟨by decide, by decide, by decide,
    C7_no_bom_utf8 [0x41, 0x80] (by decide) (by decide) (by decide)⟩

/-- C8: if the `--in` flag or the `--out` flag is missing, `main` stops at
argument parsing: usage error (argparse exit status 2) and an empty trace of
file operations — no file is read or written, whatever the input bytes. -/
theorem C8_missing_flags (a : Args) (contents : List Nat)
    (h : a.in_path = none ∨ a.out_path = none) :
    main_model a contents = (Except.error 2, []) := by
  obtain ⟨i, o⟩ := a
  rcases h with h | h
  · have hi : i = none := h
    subst hi
    rfl
  · have ho : o = none := h
    subst ho
    cases i <;> rfl

/-- Witness for C8: missing `--in` flag. -/
theorem C8_witness :
    ((Args.mk none (some "out.json")).in_path = none ∨
      (Args.mk none (some "out.json")).out_path = none) ∧
    main_model (Args.mk none (some "out.json")) [0x41] = (Except.error 2, []) :=
  ⟨Or.inl rfl, C8_missing_flags (Args.mk none (some "out.json")) [0x41] (Or.inl rfl)⟩

end Claims
